import Mathlib

/-!
# Verification of the poker hand selector (`src/lib.rs`)

A shallow embedding of the Rust library: `parse_card`, `parse_hand`,
`profile_hand`, the tie-breaker helpers, `determine_hand_type` and
`winning_hands`, followed by theorems settling the specification claims.

Modelling conventions:
* `u8` rank values are `Nat` (all arising values are below 256 because the
  numeric parser enforces it, so no wraparound can occur).
* Rust panics (`panic!`, `unwrap`, out-of-bounds indexing) are modelled as
  `Except.error` carrying the panic message; `winning_hands` therefore
  returns `Except String (Option (List String))`.
* `HashSet<Suit>` is modelled as a duplicate-free `List Suit` (only its
  cardinality is ever consumed), and `HashMap<u8, u8>` as an association
  list in insertion order.  The Rust code only observes iteration order of
  the map through `keys().next()` on maps that, at every call site reached
  by the theorems below, hold exactly one key, so a fixed admissible
  iteration order is a faithful model.
* `sort` / `sort_by_key` (stable) are `sortBy`, a structurally recursive
  stable insertion sort (see its docstring for why this is faithful).
* `str` comparison is byte-wise lexicographic; on UTF-8 this coincides with
  code-point-wise lexicographic order, modelled on `List Char` via `Char.toNat`.
-/

namespace Poker

inductive Suit where
  | Spade | Club | Heart | Diamond
deriving DecidableEq, Repr, Fintype

structure Card where
  value : Nat
  suit : Suit
deriving DecidableEq, Repr

inductive HandType where
  | HighCard | OnePair | TwoPair | ThreeOfAKind | Straight
  | Flush | FullHouse | FourOfAKind | StraightFlush
deriving DecidableEq, Repr

/-- The discriminant used by Rust's derived `Ord` on `HandType`
(declaration order). -/
def HandType.idx : HandType → Nat
  | .HighCard => 0
  | .OnePair => 1
  | .TwoPair => 2
  | .ThreeOfAKind => 3
  | .Straight => 4
  | .Flush => 5
  | .FullHouse => 6
  | .FourOfAKind => 7
  | .StraightFlush => 8

structure Hand where
  handType : HandType
  tieBreaker : List Nat
  inputString : String
deriving DecidableEq, Repr

def ACE_VALUE : Nat := 14
def KING_VALUE : Nat := 13
def QUEEN_VALUE : Nat := 12
def JACK_VALUE : Nat := 11

/-! ## Card parsing (`parse_card`) -/

/-- Rust `str::parse::<u8>`: optional leading `+`, then one or more ASCII
digits, value must fit in `u8`. -/
def parseU8 (cs : List Char) : Option Nat :=
  let ds := match cs with
    | '+' :: rest => rest
    | _ => cs
  if ds ≠ [] ∧ ds.all Char.isDigit then
    let v := ds.foldl (fun acc c => 10 * acc + (c.toNat - '0'.toNat)) 0
    if v < 256 then some v else none
  else none

/-- Model of `parse_card`: the last character selects the suit, the remaining prefix
the rank; failures are the Rust panics. -/
def parse_card (cardStr : String) : Except String Card := do
  let cs := cardStr.data
  let suit ← match cs.getLast? with
    | some 'C' => pure Suit.Club
    | some 'S' => pure Suit.Spade
    | some 'H' => pure Suit.Heart
    | some 'D' => pure Suit.Diamond
    | _ => Except.error ("Malformed card string: " ++ cardStr)
  let rest := cs.dropLast
  let value ← match parseU8 rest with
    | some v => pure v
    | none => match rest.head? with
      | some 'A' => pure ACE_VALUE
      | some 'K' => pure KING_VALUE
      | some 'Q' => pure QUEEN_VALUE
      | some 'J' => pure JACK_VALUE
      | _ => Except.error ("Malformed card string: " ++ cardStr)
  pure { value := value, suit := suit }

/-! ## Hand profiling (`profile_hand`) -/

/-- Rust `HashSet::insert` on the suit set (order is never observed, only size). -/
def insertSuit (s : Suit) (l : List Suit) : List Suit :=
  if s ∈ l then l else s :: l

/-- Rust `of_a_kinds.entry(v).and_modify(|c| *c += 1).or_insert(2)`. -/
def bumpOak (oak : List (Nat × Nat)) (v : Nat) : List (Nat × Nat) :=
  match oak with
  | [] => [(v, 2)]
  | (k, c) :: rest => if k = v then (k, c + 1) :: rest else (k, c) :: bumpOak rest v

def lookupOak (oak : List (Nat × Nat)) (r : Nat) : Option Nat :=
  match oak with
  | [] => none
  | (k, c) :: rest => if k = r then some c else lookupOak rest r

abbrev HandProfile := List Suit × List (Nat × Nat) × Bool

/-- The loop body of `profile_hand`, iterating over the sorted cards with the
running `prev_value`, suit set, of-a-kind map and straight flag. -/
def profileLoop : List Card → Nat → List Suit → List (Nat × Nat) → Bool → HandProfile
  | [], _, suits, oak, isStraight => (suits, oak, isStraight)
  | c :: rest, prev, suits, oak, isStraight =>
    let suits' := insertSuit c.suit suits
    let oak' := if prev = c.value then bumpOak oak c.value else oak
    let isStraight' :=
      if prev + 1 ≠ c.value ∧ prev ≠ 0 ∧ prev ≠ 5 ∧ c.value ≠ ACE_VALUE then false
      else isStraight
    profileLoop rest c.value suits' oak' isStraight'

/-- Insert `a` into `l` in front of the first element `b` with `le a b`. -/
def insertSorted (le : α → α → Bool) (a : α) : List α → List α
  | [] => [a]
  | b :: bs => if le a b then a :: b :: bs else b :: insertSorted le a bs

/-- Insertion sort by the boolean comparator `le`.  This models Rust's
(stable, ascending) `sort`/`sort_by_key`: insertion sort is itself stable,
and for the uses in this file the comparator either orders the elements
totally up to equality (`handLe`) or the consumers are insensitive to the
order among elements with equal keys (`sortCards`, sorting `Nat` keys), so
it produces the same list as any other stable sort. -/
def sortBy (le : α → α → Bool) : List α → List α
  | [] => []
  | a :: as => insertSorted le a (sortBy le as)

/-- Rust `cards.sort_by_key(|c| c.value)` (stable). Modelled with `sortBy`
(see there); the profiling and classification below consume the sorted cards
only through their `value` fields and through an order-insensitive suit set,
and any two sorts by value agree on the value sequence, so the model is
faithful to the stable standard-library sort. -/
def sortCards (cards : List Card) : List Card :=
  sortBy (fun a b => decide (a.value ≤ b.value)) cards

/-- Model of `profile_hand`: sorts the cards by value, then scans them accumulating
the suit set, the of-a-kind counts and the straight flag. -/
def profile_hand (cards : List Card) : HandProfile :=
  profileLoop (sortCards cards) 0 [] [] true

/-! ## Tie breakers and classification (`determine_hand_type`) -/

/-- Model of `straight_tie_breaker`: the high card is the last (largest) value, except
that an ace downgrades to the value at index 3 when that value is 5. -/
def straight_tie_breaker (cards : List Card) : Except String Nat := do
  let highest ← match cards.getLast? with
    | some c => pure c.value
    | none => Except.error "panic: called Option::unwrap on a None value"
  if highest = ACE_VALUE then
    match cards[3]? with
    | some c2 => if c2.value = 5 then pure c2.value else pure highest
    | none => Except.error "panic: index out of bounds"
  else
    pure highest

/-- Model of `of_a_kind_tie_breaker`: the (sole) key of the map, then all card values
in the order of `card_values` (the five ranks descending). -/
def of_a_kind_tie_breaker (oak : List (Nat × Nat)) (cardValues : List Nat) :
    Except String (List Nat) :=
  match oak.head? with
  | some (k, _) => pure (k :: cardValues)
  | none => Except.error "panic: called Option::unwrap on a None value"

/-- Model of `full_house_tie_breaker`: scan the map remembering the rank with count 3
and the rank with count 2 (initialised to 0). -/
def full_house_tie_breaker (oak : List (Nat × Nat)) : List Nat :=
  let tp := oak.foldl
    (fun (acc : Nat × Nat) kv =>
      let acc' := if kv.2 = 3 then (kv.1, acc.2) else acc
      if kv.2 = 2 then (acc'.1, kv.1) else acc')
    (0, 0)
  [tp.1, tp.2]

/-- Model of `two_pair_tie_breaker`: the keys sorted descending, then
`card_values`. -/
def two_pair_tie_breaker (oak : List (Nat × Nat)) (cardValues : List Nat) : List Nat :=
  let keys := sortBy (fun a b => decide (a ≤ b)) (oak.map Prod.fst)
  keys.reverse ++ cardValues

/-- Model of `determine_hand_type`: the nine-way classification cascade. -/
def determine_hand_type (profile : HandProfile) (cards : List Card) :
    Except String (List Nat × HandType) :=
  let suits := profile.1
  let ofAKinds := profile.2.1
  let isStraight := profile.2.2
  let maxOfAKindCount := (ofAKinds.map Prod.snd).foldl max 0
  let cardValues := (cards.reverse).map Card.value
  if isStraight = true ∧ suits.length = 1 then do
    let h ← straight_tie_breaker cards
    pure ([h], HandType.StraightFlush)
  else if maxOfAKindCount = 4 then do
    let tb ← of_a_kind_tie_breaker ofAKinds cardValues
    pure (tb, HandType.FourOfAKind)
  else if maxOfAKindCount = 3 ∧ ofAKinds.length = 2 then
    pure (full_house_tie_breaker ofAKinds, HandType.FullHouse)
  else if suits.length = 1 then
    pure (cardValues, HandType.Flush)
  else if isStraight = true then do
    let h ← straight_tie_breaker cards
    pure ([h], HandType.Straight)
  else if maxOfAKindCount = 3 then do
    let tb ← of_a_kind_tie_breaker ofAKinds cardValues
    pure (tb, HandType.ThreeOfAKind)
  else if ofAKinds.length = 2 then
    pure (two_pair_tie_breaker ofAKinds cardValues, HandType.TwoPair)
  else if ofAKinds.length = 1 then do
    let tb ← of_a_kind_tie_breaker ofAKinds cardValues
    pure (tb, HandType.OnePair)
  else
    pure (cardValues, HandType.HighCard)

/-! ## Hand parsing (`parse_hand`) -/

/-- Accumulator loop for `splitWs`: `acc` is the current token, reversed. -/
def splitWsAux : List Char → List Char → List (List Char)
  | [], acc => if acc = [] then [] else [acc.reverse]
  | c :: rest, acc =>
    if c.isWhitespace then
      if acc = [] then splitWsAux rest []
      else acc.reverse :: splitWsAux rest []
    else splitWsAux rest (c :: acc)

/-- Rust `str::split_whitespace`: maximal runs of non-whitespace characters. -/
def splitWs (cs : List Char) : List (List Char) :=
  splitWsAux cs []

def mapExcept (f : α → Except ε β) : List α → Except ε (List β)
  | [] => pure []
  | a :: rest => do
    let b ← f a
    let bs ← mapExcept f rest
    pure (b :: bs)

/-- Model of `parse_hand`: split into card tokens, parse each card, profile the
(sorted) cards and classify. -/
def parse_hand (handStr : String) : Except String Hand := do
  let cards ← mapExcept parse_card ((splitWs handStr.data).map (fun t => String.mk t))
  let sorted := sortCards cards
  let profile := profileLoop sorted 0 [] [] true
  let (tieBreaker, handType) ← determine_hand_type profile sorted
  pure { handType := handType, tieBreaker := tieBreaker, inputString := handStr }

/-! ## Hand ordering (Rust's derived `Ord` on `Hand`) -/

/-- Strict lexicographic order on `List Nat`, exactly `Vec<u8>`'s `Ord`. -/
def ltL : List Nat → List Nat → Bool
  | [], [] => false
  | [], _ :: _ => true
  | _ :: _, [] => false
  | a :: as, b :: bs => if a < b then true else if b < a then false else ltL as bs

/-- The byte sequence a Rust `&str` compares by (UTF-8 order agrees with
code-point order). -/
def strKey (s : String) : List Nat := s.data.map Char.toNat

/-- Rust's derived `Ord` on `Hand` as a `≤` test: lexicographic on
`(hand_type, tie_breaker, input_string)`. -/
def handLe (a b : Hand) : Bool :=
  if a.handType.idx < b.handType.idx then true
  else if b.handType.idx < a.handType.idx then false
  else if ltL a.tieBreaker b.tieBreaker then true
  else if ltL b.tieBreaker a.tieBreaker then false
  else if ltL (strKey a.inputString) (strKey b.inputString) then true
  else if ltL (strKey b.inputString) (strKey a.inputString) then false
  else true

/-! ## Winner selection (`winning_hands`) -/

/-- Model of `winning_hands`: parse every hand, sort ascending and reverse,
then take the maximal prefix agreeing with the first hand on
`(hand_type, tie_breaker)`.  Rust's stable `sort` is modelled with `sortBy`;
`handLe` is total, and two `Hand` values it orders both ways are equal (the
key determines every field), so every sort - stable or not - produces the
same list here. -/
def winning_hands (hands : List String) : Except String (Option (List String)) := do
  let parsedHands ← mapExcept parse_hand hands
  let sorted := (sortBy handLe parsedHands).reverse
  match sorted.head? with
  | none => pure none
  | some best =>
    let winners := sorted.takeWhile
      (fun h => decide (best.handType = h.handType) && decide (best.tieBreaker = h.tieBreaker))
    pure (some (winners.map Hand.inputString))

/-! ## Derived notions used by the claim statements -/

/-- The `(category, tie_breaker)` pair of a hand. -/
def Hand.pair (h : Hand) : HandType × List Nat := (h.handType, h.tieBreaker)

/-- Comparison of `(category, tie_breaker)` pairs: category first, then
tie-breaker lexicographically, higher wins.  This is the projection of
`handLe` that forgets the input string. -/
def pairLe (p q : HandType × List Nat) : Bool :=
  if p.1.idx < q.1.idx then true
  else if q.1.idx < p.1.idx then false
  else if ltL p.2 q.2 then true
  else if ltL q.2 p.2 then false
  else true

/-- The `(category, tie_breaker)` pair a hand string parses to (junk value on
parse failure; the theorems only use it on strings that parse). -/
def pairOfStr (s : String) : HandType × List Nat :=
  match parse_hand s with
  | .ok h => h.pair
  | .error _ => (HandType.HighCard, [])

/-- Checks that each element of the list is exactly one more than its
predecessor. -/
def consecutiveChain : List Nat → Bool
  | [] => true
  | [_] => true
  | a :: b :: rest => decide (b = a + 1) && consecutiveChain (b :: rest)

/-- The straight predicate in the spec's words: after sorting the ranks
ascending, each rank is exactly one more than the previous, or the sorted
ranks are exactly `[2, 3, 4, 5, 14]` (the wheel). -/
def specIsStraight (ranks : List Nat) : Bool :=
  let s := sortBy (fun a b => decide (a ≤ b)) ranks
  consecutiveChain s || decide (s = [2, 3, 4, 5, 14])

/-! ## Lemmas about `sortBy` -/

theorem insertSorted_perm (le : α → α → Bool) (a : α) (l : List α) :
    List.Perm (insertSorted le a l) (a :: l) := by
  induction l with
  | nil => simp [insertSorted]
  | cons b bs ih =>
    simp only [insertSorted]
    split
    · exact List.Perm.refl _
    · exact (ih.cons b).trans (List.Perm.swap a b bs)

theorem sortBy_perm (le : α → α → Bool) (l : List α) : List.Perm (sortBy le l) l := by
  induction l with
  | nil => exact List.Perm.refl _
  | cons a as ih => exact (insertSorted_perm le a _).trans (ih.cons a)

theorem pairwise_insertSorted (le : α → α → Bool)
    (htrans : ∀ a b c, le a b = true → le b c = true → le a c = true)
    (htotal : ∀ a b, le a b = true ∨ le b a = true)
    (a : α) (l : List α) (h : l.Pairwise (fun x y => le x y = true)) :
    (insertSorted le a l).Pairwise (fun x y => le x y = true) := by
  induction l with
  | nil => simp [insertSorted]
  | cons b bs ih =>
    rcases List.pairwise_cons.mp h with ⟨hb, hbs⟩
    simp only [insertSorted]
    split
    case isTrue hab =>
      refine List.pairwise_cons.mpr ⟨?_, h⟩
      intro x hx
      rcases List.mem_cons.mp hx with rfl | hx
      · exact hab
      · exact htrans a b x hab (hb x hx)
    case isFalse hab =>
      have hba : le b a = true := by
        rcases htotal a b with h' | h'
        · exact absurd h' hab
        · exact h'
      refine List.pairwise_cons.mpr ⟨?_, ih hbs⟩
      intro x hx
      have hx' : x ∈ a :: bs := (insertSorted_perm le a bs).mem_iff.mp hx
      rcases List.mem_cons.mp hx' with rfl | hx'
      · exact hba
      · exact hb x hx'

theorem pairwise_sortBy (le : α → α → Bool)
    (htrans : ∀ a b c, le a b = true → le b c = true → le a c = true)
    (htotal : ∀ a b, le a b = true ∨ le b a = true)
    (l : List α) : (sortBy le l).Pairwise (fun x y => le x y = true) := by
  induction l with
  | nil => simp [sortBy]
  | cons a as ih => exact pairwise_insertSorted le htrans htotal a _ ih

/-! ## Lemmas about the lexicographic comparators -/

theorem ltL_iff {a b : List Nat} : ltL a b = true ↔ List.Lex (· < ·) a b := by
  induction a generalizing b with
  | nil =>
    cases b with
    | nil =>
      constructor
      · intro h; simp [ltL] at h
      · intro h; cases h
    | cons y ys =>
      constructor
      · intro _; exact List.Lex.nil
      · intro _; rfl
  | cons x xs ih =>
    cases b with
    | nil =>
      constructor
      · intro h; simp [ltL] at h
      · intro h; cases h
    | cons y ys =>
      simp only [ltL]
      rcases Nat.lt_trichotomy x y with h | rfl | h
      · rw [if_pos h]
        exact ⟨fun _ => .rel h, fun _ => rfl⟩
      · rw [if_neg (Nat.lt_irrefl x), if_neg (Nat.lt_irrefl x)]
        constructor
        · intro hx; exact .cons (ih.mp hx)
        · intro hlex
          cases hlex with
          | cons h' => exact ih.mpr h'
          | rel h' => exact absurd h' (Nat.lt_irrefl x)
      · rw [if_neg (Nat.lt_asymm h), if_pos h]
        constructor
        · intro hc; exact Bool.noConfusion hc
        · intro hlex
          cases hlex with
          | cons h' => exact absurd h (Nat.lt_irrefl _)
          | rel h' => exact absurd h' (Nat.lt_asymm h)

theorem ltL_of_lex {a b : List Nat} (h : List.Lex (· < ·) a b) : ltL a b = true :=
  ltL_iff.mpr h

theorem not_lex_of_ltL_eq_false {a b : List Nat} (h : ltL a b = false) :
    ¬ List.Lex (· < ·) a b := by
  intro hlex
  rw [ltL_iff.mpr hlex] at h
  exact Bool.noConfusion h

theorem ltL_trans {a b c : List Nat} (h1 : ltL a b = true) (h2 : ltL b c = true) :
    ltL a c = true :=
  ltL_iff.mpr (trans_of _ (ltL_iff.mp h1) (ltL_iff.mp h2))

theorem ltL_irrefl (a : List Nat) : ltL a a = false := by
  cases h : ltL a a
  · rfl
  · exact absurd (ltL_iff.mp h) (irrefl_of _ a)

theorem ltL_asymm {a b : List Nat} (h : ltL a b = true) : ltL b a = false := by
  cases hba : ltL b a
  · rfl
  · have h1 := ltL_trans h hba
    rw [ltL_irrefl a] at h1
    exact Bool.noConfusion h1

theorem ltL_conn {a b : List Nat} (h1 : ltL a b = false) (h2 : ltL b a = false) :
    a = b := by
  rcases trichotomous_of (List.Lex (α := Nat) (· < ·)) a b with h | h | h

  · exact absurd h (not_lex_of_ltL_eq_false h1)
  · exact h
  · exact absurd h (not_lex_of_ltL_eq_false h2)

/-! ## Lemmas about `handLe` and `pairLe` -/

theorem HandType.idx_injective {s t : HandType} (h : s.idx = t.idx) : s = t := by
  cases s <;> cases t <;> first | rfl | simp [HandType.idx] at h

theorem handLe_iff {a b : Hand} : handLe a b = true ↔
    a.handType.idx < b.handType.idx ∨
      (a.handType.idx = b.handType.idx ∧
        (ltL a.tieBreaker b.tieBreaker = true ∨
          (a.tieBreaker = b.tieBreaker ∧
            ltL (strKey b.inputString) (strKey a.inputString) = false))) := by
  simp only [handLe]
  by_cases h1 : a.handType.idx < b.handType.idx
  · simp [h1]
  · by_cases h2 : b.handType.idx < a.handType.idx
    · simp only [if_neg h1, if_pos h2]
      constructor
      · intro hc; exact absurd hc (by simp)
      · intro hc
        rcases hc with hlt | ⟨heq, _⟩
        · exact absurd hlt h1
        · omega
    · have heq : a.handType.idx = b.handType.idx := by omega
      simp only [if_neg h1, if_neg h2]
      by_cases h3 : ltL a.tieBreaker b.tieBreaker = true
      · simp [h3, heq]
      · by_cases h4 : ltL b.tieBreaker a.tieBreaker = true
        · have hne : ¬ a.tieBreaker = b.tieBreaker := by
            intro hcontra
            rw [hcontra, ltL_irrefl] at h4
            exact Bool.noConfusion h4
          simp [h3, h4, hne, h1, heq, ltL_asymm h4]
        · have hteq : a.tieBreaker = b.tieBreaker :=
            ltL_conn (Bool.eq_false_iff.mpr h3) (Bool.eq_false_iff.mpr h4)
        ;
          simp only [if_neg h3, if_neg h4]
          by_cases h5 : ltL (strKey a.inputString) (strKey b.inputString) = true
          · simp [h5, heq, hteq, ltL_asymm h5]
          · by_cases h6 : ltL (strKey b.inputString) (strKey a.inputString) = true
            · simp [h5, h6, heq, hteq, h1, ltL_irrefl]
            · simp [h5, h6, heq, hteq, Bool.eq_false_iff.mpr h6]

theorem handLe_refl (a : Hand) : handLe a a = true := by
  rw [handLe_iff]
  exact Or.inr ⟨rfl, Or.inr ⟨rfl, ltL_irrefl _⟩⟩

theorem handLe_total (a b : Hand) : handLe a b = true ∨ handLe b a = true := by
  rw [handLe_iff, handLe_iff]
  by_cases h1 : a.handType.idx < b.handType.idx
  · exact Or.inl (Or.inl h1)
  · by_cases h2 : b.handType.idx < a.handType.idx
    · exact Or.inr (Or.inl h2)
    · have heq : a.handType.idx = b.handType.idx := by omega
      by_cases h3 : ltL a.tieBreaker b.tieBreaker = true
      · exact Or.inl (Or.inr ⟨heq, Or.inl h3⟩)
      · by_cases h4 : ltL b.tieBreaker a.tieBreaker = true
        · exact Or.inr (Or.inr ⟨heq.symm, Or.inl h4⟩)
        · have hteq : a.tieBreaker = b.tieBreaker :=
            ltL_conn (Bool.eq_false_iff.mpr h3) (Bool.eq_false_iff.mpr h4)
          by_cases h5 : ltL (strKey b.inputString) (strKey a.inputString) = true
          · exact Or.inr (Or.inr ⟨heq.symm, Or.inr ⟨hteq.symm, ltL_asymm h5⟩⟩)
          · exact Or.inl (Or.inr ⟨heq, Or.inr ⟨hteq, Bool.eq_false_iff.mpr h5⟩⟩)

theorem ltL_false_trans {a b c : List Nat}
    (h1 : ltL b a = false) (h2 : ltL c b = false) : ltL c a = false := by
  cases hc : ltL c a
  · rfl
  · exfalso
    rcases trichotomous_of (List.Lex (α := Nat) (· < ·)) a b with h | rfl | h
    · have := ltL_trans hc (ltL_iff.mpr h)
      rw [h2] at this
      exact Bool.noConfusion this
    · rw [hc] at h2
      exact Bool.noConfusion h2
    · rw [ltL_iff.mpr h] at h1
      exact Bool.noConfusion h1

theorem handLe_trans (a b c : Hand) (h1 : handLe a b = true) (h2 : handLe b c = true) :
    handLe a c = true := by
  rw [handLe_iff] at h1 h2 ⊢
  rcases h1 with h1 | ⟨e1, h1⟩
  · rcases h2 with h2 | ⟨e2, _⟩
    · exact Or.inl (Nat.lt_trans h1 h2)
    · exact Or.inl (e2 ▸ h1)
  · rcases h2 with h2 | ⟨e2, h2⟩
    · exact Or.inl (e1 ▸ h2)
    · refine Or.inr ⟨e1.trans e2, ?_⟩
      rcases h1 with h1 | ⟨t1, s1⟩
      · rcases h2 with h2 | ⟨t2, _⟩
        · exact Or.inl (ltL_trans h1 h2)
        · exact Or.inl (t2 ▸ h1)
      · rcases h2 with h2 | ⟨t2, s2⟩
        · exact Or.inl (t1 ▸ h2)
        · exact Or.inr ⟨t1.trans t2, ltL_false_trans s1 s2⟩

theorem pairLe_iff {p q : HandType × List Nat} : pairLe p q = true ↔
    p.1.idx < q.1.idx ∨ (p.1.idx = q.1.idx ∧ ltL q.2 p.2 = false) := by
  simp only [pairLe]
  by_cases h1 : p.1.idx < q.1.idx
  · simp [h1]
  · by_cases h2 : q.1.idx < p.1.idx
    · simp only [if_neg h1, if_pos h2]
      constructor
      · intro hc; exact absurd hc (by simp)
      · intro hc
        rcases hc with hlt | ⟨heq, _⟩
        · exact absurd hlt h1
        · omega
    · have heq : p.1.idx = q.1.idx := by omega
      simp only [if_neg h1, if_neg h2]
      by_cases h3 : ltL p.2 q.2 = true
      · simp [h3, heq, ltL_asymm h3]
      · by_cases h4 : ltL q.2 p.2 = true
        · simp [h3, h4, h1]

        · simp [h3, h4, heq, Bool.eq_false_iff.mpr h4]

theorem pairLe_refl (p : HandType × List Nat) : pairLe p p = true := by
  rw [pairLe_iff]
  exact Or.inr ⟨rfl, ltL_irrefl _⟩

theorem pairLe_antisymm {p q : HandType × List Nat}
    (h1 : pairLe p q = true) (h2 : pairLe q p = true) : p = q := by
  rw [pairLe_iff] at h1 h2
  rcases h1 with h1 | ⟨e1, h1⟩
  · rcases h2 with h2 | ⟨e2, _⟩
    · omega
    · omega
  · rcases h2 with h2 | ⟨e2, h2⟩
    · omega
    · have hl : p.2 = q.2 := ltL_conn h2 h1
      have ht : p.1 = q.1 := HandType.idx_injective e1
      exact Prod.ext ht hl

/-- The sort comparator forgets down to the `(category, tie_breaker)`
comparison: `handLe` refines `pairLe`. -/
theorem handLe_pairLe {a b : Hand} (h : handLe a b = true) :
    pairLe a.pair b.pair = true := by
  rw [handLe_iff] at h
  rw [pairLe_iff]
  simp only [Hand.pair]
  rcases h with h | ⟨e, h⟩
  · exact Or.inl h
  · refine Or.inr ⟨e, ?_⟩
    rcases h with h | ⟨t, _⟩
    · exact ltL_asymm h
    · rw [t]
      exact ltL_irrefl _

/-! ## Plumbing lemmas: `mapExcept`, `parse_hand`, `takeWhile` -/

theorem mem_takeWhile_pred {p : α → Bool} :
    ∀ {l : List α} {a : α}, a ∈ l.takeWhile p → p a = true := by
  intro l
  induction l with
  | nil => intro a h; simp at h
  | cons x xs ih =>
    intro a h
    rw [List.takeWhile_cons] at h
    by_cases hp : p x = true
    · rw [if_pos hp] at h
      rcases List.mem_cons.mp h with rfl | h
      · exact hp
      · exact ih h
    · rw [if_neg hp] at h
      simp at h

theorem mapExcept_nil {f : α → Except ε β} : mapExcept f [] = .ok [] := rfl

theorem mapExcept_ok_mem {f : α → Except ε β} :
    ∀ {l : List α} {bs : List β}, mapExcept f l = .ok bs →
      ∀ b, b ∈ bs ↔ ∃ a ∈ l, f a = .ok b := by
  intro l
  induction l with
  | nil =>
    intro bs h b
    rw [mapExcept_nil] at h
    cases h
    simp
  | cons a as ih =>
    intro bs h b
    simp only [mapExcept, bind, Except.bind] at h
    cases hfa : f a with
    | error e => rw [hfa] at h; cases h
    | ok b0 =>
      rw [hfa] at h
      cases hrest : mapExcept f as with
      | error e => rw [hrest] at h; cases h
      | ok bs0 =>
        rw [hrest] at h
        simp only [pure, Except.pure] at h
        cases h
        constructor
        · intro hb
          rcases List.mem_cons.mp hb with rfl | hb
          · exact ⟨a, List.mem_cons_self a as, hfa⟩
          · rcases (ih hrest b).mp hb with ⟨a', ha', hfa'⟩
            exact ⟨a', List.mem_cons_of_mem a ha', hfa'⟩
        · rintro ⟨a', ha', hfa'⟩
          rcases List.mem_cons.mp ha' with rfl | ha'
          · rw [hfa] at hfa'
            cases hfa'
            exact List.mem_cons_self _ _
          · exact List.mem_cons_of_mem _ ((ih hrest b).mpr ⟨a', ha', hfa'⟩)

theorem mapExcept_ok_length {f : α → Except ε β} :
    ∀ {l : List α} {bs : List β}, mapExcept f l = .ok bs → bs.length = l.length := by
  intro l
  induction l with
  | nil =>
    intro bs h
    rw [mapExcept_nil] at h
    cases h
    rfl
  | cons a as ih =>
    intro bs h
    simp only [mapExcept, bind, Except.bind] at h
    cases hfa : f a with
    | error e => rw [hfa] at h; cases h
    | ok b0 =>
      rw [hfa] at h
      cases hrest : mapExcept f as with
      | error e => rw [hrest] at h; cases h
      | ok bs0 =>
        rw [hrest] at h
        simp only [pure, Except.pure] at h
        cases h
        simp [ih hrest]

theorem mapExcept_ok_of_forall {f : α → Except ε β} :
    ∀ {l : List α}, (∀ a ∈ l, ∃ b, f a = .ok b) →
      ∃ bs, mapExcept f l = .ok bs := by
  intro l
  induction l with
  | nil => intro _; exact ⟨[], rfl⟩
  | cons a as ih =>
    intro hall
    rcases hall a (List.mem_cons_self a as) with ⟨b, hb⟩
    rcases ih (fun a' ha' => hall a' (List.mem_cons_of_mem a ha')) with ⟨bs, hbs⟩
    refine ⟨b :: bs, ?_⟩
    simp only [mapExcept, bind, Except.bind, hb, hbs, pure, Except.pure]

theorem parse_hand_inputString {s : String} {h : Hand}
    (hp : parse_hand s = Except.ok h) : h.inputString = s := by
  simp only [parse_hand, bind, Except.bind] at hp
  split at hp
  · cases hp
  · split at hp
    · cases hp
    · simp only [pure, Except.pure] at hp
      cases hp
      rfl

/-- Every hand with the head's `(category, tie_breaker)` pair, and only
those, survives the `take_while` over the descending sorted list. -/
theorem takeWhile_pair_mem {l : List Hand} {x : Hand}
    (hhead : l.head? = some x)
    (hsort : l.Pairwise (fun a b => handLe b a = true)) (h : Hand) :
    h ∈ l.takeWhile
        (fun h' => decide (x.handType = h'.handType) && decide (x.tieBreaker = h'.tieBreaker))
      ↔ h ∈ l ∧ h.pair = x.pair := by
  set p : Hand → Bool :=
    fun h' => decide (x.handType = h'.handType) && decide (x.tieBreaker = h'.tieBreaker) with hp
  have hpiff : ∀ h' : Hand, p h' = true ↔ h'.pair = x.pair := by
    intro h'
    simp only [hp, Bool.and_eq_true, decide_eq_true_eq, Hand.pair, Prod.mk.injEq]
    exact ⟨fun ⟨u, v⟩ => ⟨u.symm, v.symm⟩, fun ⟨u, v⟩ => ⟨u.symm, v.symm⟩⟩
  constructor
  · intro hmem
    exact ⟨(List.takeWhile_sublist p).subset hmem, (hpiff h).mp (mem_takeWhile_pred hmem)⟩
  · rintro ⟨hl, hpair⟩
    by_contra habs
    have hmem2 : h ∈ l.takeWhile p ++ l.dropWhile p := by
      rw [List.takeWhile_append_dropWhile]
      exact hl
    rcases List.mem_append.mp hmem2 with hT | hD
    · exact habs hT
    cases hD' : l.dropWhile p with
    | nil => rw [hD'] at hD; simp at hD
    | cons y ys =>
      rw [hD'] at hD
      have hpy : p y = false := by
        have := List.head?_dropWhile_not p l
        rw [hD'] at this
        simpa using this
      obtain ⟨l', rfl⟩ : ∃ l', l = x :: l' := by
        cases l with
        | nil => cases hhead
        | cons z zs => cases hhead; exact ⟨zs, rfl⟩
      have hyx : handLe y x = true := by
        have hymem : y ∈ x :: l' := (List.dropWhile_sublist p).subset (hD' ▸ List.mem_cons_self y ys)
        have hyne : y ≠ x := by
          intro hcontra
          rw [hcontra] at hpy
          have : p x = true := (hpiff x).mpr rfl
          rw [this] at hpy
          exact Bool.noConfusion hpy
        rcases List.mem_cons.mp hymem with h' | h'
        · exact absurd h' hyne
        · exact (List.pairwise_cons.mp hsort).1 y h'
      have hpairy : y.pair ≠ x.pair := fun hcontra => by
        have : p y = true := (hpiff y).mpr hcontra
        rw [this] at hpy
        exact Bool.noConfusion hpy
      rcases List.mem_cons.mp hD with rfl | hys
      · exact hpairy hpair
      · have hhy : handLe h y = true := by
          have hDsub : List.Sublist (y :: ys) (x :: l') := by
            rw [← hD']
            exact List.dropWhile_sublist p
          have hDpair : (y :: ys).Pairwise (fun a b => handLe b a = true) :=
            List.Pairwise.sublist hDsub hsort
          exact (List.pairwise_cons.mp hDpair).1 h hys
        have h1 : pairLe h.pair y.pair = true := handLe_pairLe hhy
        have h2 : pairLe y.pair x.pair = true := handLe_pairLe hyx
        rw [hpair] at h1
        exact hpairy (pairLe_antisymm h2 h1)

/-! ## The shape of a successful `winning_hands` run -/

/-- Unfolds one successful run of `winning_hands`: the hands all parse, the
descending sorted list has a head `best`, and the winners are the maximal
`take_while` prefix.  All later claim theorems about the selector are read
off this lemma. -/
theorem winning_hands_run {hands : List String} {parsed : List Hand}
    (hparse : mapExcept parse_hand hands = .ok parsed) (hne : parsed ≠ []) :
    ∃ best rest,
      (sortBy handLe parsed).reverse = best :: rest ∧
      winning_hands hands = .ok (some
        (((best :: rest).takeWhile (fun h =>
            decide (best.handType = h.handType) &&
            decide (best.tieBreaker = h.tieBreaker))).map Hand.inputString)) := by
  cases hst : (sortBy handLe parsed).reverse with
  | nil =>
    exfalso
    have : parsed = [] := by
      have hlen : (sortBy handLe parsed).reverse.length = parsed.length := by
        rw [List.length_reverse]
        exact (sortBy_perm handLe parsed).length_eq
      rw [hst] at hlen
      exact List.length_eq_zero.mp hlen.symm
    exact hne this
  | cons best rest =>
    refine ⟨best, rest, rfl, ?_⟩
    simp only [winning_hands, bind, Except.bind, hparse, hst, List.head?_cons, pure, Except.pure]

/-- The descending sorted list is sorted for the flipped comparator. -/
theorem sorted_desc (parsed : List Hand) :
    (sortBy handLe parsed).reverse.Pairwise (fun a b => handLe b a = true) :=
  List.pairwise_reverse.mpr (pairwise_sortBy handLe handLe_trans handLe_total parsed)

/-- The descending sorted list is a permutation of the parsed hands. -/
theorem sorted_desc_perm (parsed : List Hand) :
    List.Perm (sortBy handLe parsed).reverse parsed :=
  (List.reverse_perm _).trans (sortBy_perm handLe parsed)

/-- The head of the descending sorted list dominates every parsed hand. -/
theorem sorted_desc_head_max {parsed : List Hand} {best : Hand} {rest : List Hand}
    (hst : (sortBy handLe parsed).reverse = best :: rest) :
    ∀ h ∈ parsed, handLe h best = true := by
  intro h hmem
  have hmem' : h ∈ best :: rest := by
    rw [← hst]
    exact (sorted_desc_perm parsed).mem_iff.mpr hmem
  rcases List.mem_cons.mp hmem' with rfl | hmem'
  · exact handLe_refl h
  · have hdesc := sorted_desc parsed
    rw [hst] at hdesc
    exact (List.pairwise_cons.mp hdesc).1 h hmem'

/-- Helper: a successful nonempty `winning_hands` run returns a nonempty
list that contains a string iff it is an input hand whose
`(category, tie_breaker)` pair dominates every input's pair, and that is
ordered by descending string key. -/
theorem winning_hands_full (hands : List String)
    (hne : hands ≠ []) (hok : ∀ s ∈ hands, ∃ h, parse_hand s = .ok h) :
    ∃ ws, winning_hands hands = .ok (some ws) ∧
      (∀ s, s ∈ ws ↔
        (s ∈ hands ∧ ∀ t ∈ hands, pairLe (pairOfStr t) (pairOfStr s) = true)) ∧
      ws.Pairwise (fun a b => ltL (strKey a) (strKey b) = false) ∧
      ws ≠ [] := by
  rcases mapExcept_ok_of_forall hok with ⟨parsed, hparse⟩
  have hlen : parsed.length = hands.length := mapExcept_ok_length hparse
  have hpne : parsed ≠ [] := by
    intro hcontra
    rw [hcontra] at hlen
    exact hne (List.length_eq_zero.mp hlen.symm)
  rcases winning_hands_run hparse hpne with ⟨best, rest, hst, hrun⟩
  set p : Hand → Bool := fun h =>
    decide (best.handType = h.handType) && decide (best.tieBreaker = h.tieBreaker) with hpdef
  set winners : List Hand := (best :: rest).takeWhile p with hwdef
  refine ⟨winners.map Hand.inputString, hrun, ?_, ?_, ?_⟩
  case _ =>
    have hmemiff := mapExcept_ok_mem hparse
    have hmax := sorted_desc_head_max hst
    have hdesc : (best :: rest).Pairwise (fun a b => handLe b a = true) := by
      have h' := sorted_desc parsed
      rw [hst] at h'
      exact h'
    have hperm : List.Perm (best :: rest) parsed := by
      rw [← hst]
      exact sorted_desc_perm parsed
    have htw : ∀ h, h ∈ winners ↔ h ∈ parsed ∧ h.pair = best.pair := by
      intro h
      rw [hwdef]
      constructor
      · intro hh
        rcases (takeWhile_pair_mem List.head?_cons hdesc h).mp hh with ⟨hm, hp2⟩
        exact ⟨hperm.mem_iff.mp hm, hp2⟩
      · rintro ⟨hm, hp2⟩
        exact (takeWhile_pair_mem List.head?_cons hdesc h).mpr ⟨hperm.mem_iff.mpr hm, hp2⟩
    have hbparsed : best ∈ parsed := hperm.mem_iff.mp (List.mem_cons_self _ _)
    rcases (hmemiff best).mp hbparsed with ⟨sb, hsb, hpb⟩
    have hpos : ∀ {t : String} {h : Hand}, parse_hand t = .ok h → pairOfStr t = h.pair := by
      intro t h hp
      simp [pairOfStr, hp]
    intro s
    constructor
    · intro hs
      rcases List.mem_map.mp hs with ⟨h, hhw, rfl⟩
      rcases (htw h).mp hhw with ⟨hhp, hhpair⟩
      rcases (hmemiff h).mp hhp with ⟨t, hts, hth⟩
      have hinput : h.inputString = t := parse_hand_inputString hth
      constructor
      · rw [hinput]
        exact hts
      · intro t' ht'
        rcases hok t' ht' with ⟨h', hph'⟩
        have hh'm : h' ∈ parsed := (hmemiff h').mpr ⟨t', ht', hph'⟩
        have hle : pairLe h'.pair best.pair = true := handLe_pairLe (hmax h' hh'm)
        rw [hpos hph', hinput, hpos hth, hhpair]
        exact hle
    · rintro ⟨hsmem, hsmax⟩
      rcases hok s hsmem with ⟨hs', hph⟩
      have hsm : hs' ∈ parsed := (hmemiff hs').mpr ⟨s, hsmem, hph⟩
      have h1 : pairLe hs'.pair best.pair = true := handLe_pairLe (hmax hs' hsm)
      have h2 : pairLe best.pair hs'.pair = true := by
        have h3 := hsmax sb hsb
        rw [hpos hpb, hpos hph] at h3
        exact h3
      have heq : hs'.pair = best.pair := pairLe_antisymm h1 h2
      have hw' : hs' ∈ winners := (htw hs').mpr ⟨hsm, heq⟩
      exact List.mem_map.mpr ⟨hs', hw', parse_hand_inputString hph⟩
  case _ =>
    have hdesc : (best :: rest).Pairwise (fun a b => handLe b a = true) := by
      have h' := sorted_desc parsed
      rw [hst] at h'
      exact h'
    have hwdesc : winners.Pairwise (fun a b => handLe b a = true) :=
      List.Pairwise.sublist (List.takeWhile_sublist p) hdesc
    rw [List.pairwise_map]
    refine hwdesc.imp_of_mem ?_
    intro a b ha hb hba
    have hpa : a.pair = best.pair := (takeWhile_pair_mem List.head?_cons hdesc a).mp ha |>.2
    have hpb : b.pair = best.pair := (takeWhile_pair_mem List.head?_cons hdesc b).mp hb |>.2
    have hab : a.pair = b.pair := hpa.trans hpb.symm
    have hidx : a.handType.idx = b.handType.idx := by
      have := congrArg (fun q => q.1.idx) hab
      simpa [Hand.pair] using this
    have htie : a.tieBreaker = b.tieBreaker := by
      have := congrArg Prod.snd hab
      simpa [Hand.pair] using this
    rw [handLe_iff] at hba
    rcases hba with hlt | ⟨_, hin⟩
    · omega
    · rcases hin with hlt2 | ⟨_, hs2⟩
      · rw [htie, ltL_irrefl] at hlt2
        exact Bool.noConfusion hlt2
      · exact hs2
  case _ =>
    have hpbest : p best = true := by
      simp [hpdef]
    have : winners = best :: List.takeWhile p rest := by
      rw [hwdef, List.takeWhile_cons, if_pos hpbest]
    rw [this]
    simp

/-! ## Claim theorems -/

/-- C1: for every non-empty list of valid hand strings, `winning_hands`
returns exactly those input hands whose `(category, tie_breaker)` pair is
maximal under the category-then-tie-breaker ordering: every hand with the
maximal pair is in the result and every other hand is not. -/
theorem winning_hands_selects_exactly_the_maximal_pairs (hands : List String)
    (hne : hands ≠ []) (hok : ∀ s ∈ hands, ∃ h, parse_hand s = .ok h) :
    ∃ ws, winning_hands hands = .ok (some ws) ∧
      ∀ s, s ∈ ws ↔
        (s ∈ hands ∧ ∀ t ∈ hands, pairLe (pairOfStr t) (pairOfStr s) = true) := by
  rcases winning_hands_full hands hne hok with ⟨ws, h1, h2, _, _⟩
  exact ⟨ws, h1, h2⟩

/-- C3 counterexample: two hands tied on `(category, tie_breaker)` (two
equal-rank full houses differing only in suits) come back in the opposite
of their input order, because the sort's derived ordering also compares the
input strings and the sorted list is reversed. -/
theorem winning_hands_tied_pair_order_counterexample :
    winning_hands ["4C 4D 4H 9C 9D", "4C 4D 4S 9C 9D"] =
      .ok (some ["4C 4D 4S 9C 9D", "4C 4D 4H 9C 9D"]) ∧
    pairOfStr "4C 4D 4H 9C 9D" = pairOfStr "4C 4D 4S 9C 9D" ∧
    ("4C 4D 4S 9C 9D" : String) ≠ "4C 4D 4H 9C 9D" :=
  ⟨rfl, rfl, by decide⟩

/-- C3 amended: all tied maximal hands are returned, but ordered by
descending string key (the reverse of the derived lexicographic order on
the hand strings), not necessarily in input order. -/
theorem winning_hands_ties_sorted_by_descending_string (hands : List String)
    (hne : hands ≠ []) (hok : ∀ s ∈ hands, ∃ h, parse_hand s = .ok h) :
    ∃ ws, winning_hands hands = .ok (some ws) ∧
      (∀ s ∈ hands, (∀ t ∈ hands, pairLe (pairOfStr t) (pairOfStr s) = true) → s ∈ ws) ∧
      ws.Pairwise (fun a b => ltL (strKey a) (strKey b) = false) := by
  rcases winning_hands_full hands hne hok with ⟨ws, h1, h2, h3, _⟩
  exact ⟨ws, h1, fun s hs hmax => (h2 s).mpr ⟨hs, hmax⟩, h3⟩

/-- C9: `winning_hands` yields the absent result exactly on the empty input
list; on a non-empty list of valid hands it yields a present, non-empty
winner list. -/
theorem winning_hands_none_iff_empty_input (hands : List String)
    (hok : ∀ s ∈ hands, ∃ h, parse_hand s = .ok h) :
    (winning_hands hands = .ok none ↔ hands = []) ∧
    (hands ≠ [] → ∃ ws, winning_hands hands = .ok (some ws) ∧ ws ≠ []) := by
  constructor
  · constructor
    · intro hnone
      by_contra hne
      rcases winning_hands_full hands hne hok with ⟨ws, h1, _, _, _⟩
      rw [h1] at hnone
      simp at hnone
    · intro h
      subst h
      rfl
  · intro hne
    rcases winning_hands_full hands hne hok with ⟨ws, h1, _, _, h4⟩
    exact ⟨ws, h1, h4⟩

/-- C7: in the comparison `winning_hands` sorts by, a hand whose category
has a strictly higher discriminant (the declaration order `HighCard <
OnePair < ... < StraightFlush`) beats any hand of lower category,
irrespective of either tie-breaker. -/
theorem higher_category_always_wins_in_handLe (a b : Hand)
    (h : a.handType.idx < b.handType.idx) :
    handLe a b = true ∧ handLe b a = false := by
  constructor
  · rw [handLe_iff]
    exact Or.inl h
  · cases hc : handLe b a
    · rfl
    · rw [handLe_iff] at hc
      rcases hc with h2 | ⟨e2, _⟩ <;> omega

/-- C2 evidence: the profiler's straight flag is set for the rank multiset
`{2, 3, 4, 5, 10}`, which is neither a run of consecutive ranks nor the
wheel, so the whole hand is (mis)classified as a Straight. -/
theorem straight_flag_set_for_2_3_4_5_10 :
    (profile_hand [⟨2, .Heart⟩, ⟨3, .Diamond⟩, ⟨4, .Club⟩, ⟨5, .Spade⟩,
      ⟨10, .Heart⟩]).2.2 = true ∧
    specIsStraight [2, 3, 4, 5, 10] = false ∧
    parse_hand "2H 3D 4C 5S 10H" =
      .ok ⟨HandType.Straight, [10], "2H 3D 4C 5S 10H"⟩ :=
  ⟨rfl, rfl, rfl⟩

/-- C4 evidence: the hand `3H 4D 5C 5S AH` is classified as a Straight with
tie-break high card 5 although its sorted ranks `[3, 4, 5, 5, 14]` are not
the wheel and their maximum is 14. -/
theorem straight_tie_breaker_wheel_rule_misfires :
    parse_hand "3H 4D 5C 5S AH" =
      .ok ⟨HandType.Straight, [5], "3H 4D 5C 5S AH"⟩ ∧
    sortBy (fun a b => decide (a ≤ b)) [3, 4, 5, 5, 14] = [3, 4, 5, 5, 14] ∧
    ([3, 4, 5, 5, 14] : List Nat) ≠ [2, 3, 4, 5, 14] ∧
    (∀ r ∈ ([3, 4, 5, 5, 14] : List Nat), r ≤ 14) ∧ 14 ∈ ([3, 4, 5, 5, 14] : List Nat) :=
  ⟨rfl, rfl, by decide, by decide, by decide⟩

/-- C5 evidence: the token `11S` is not a valid rank-plus-suit combination
(ranks are 2..10, J, Q, K, A) but `parse_card` accepts it as rank 11, and a
hand containing it is ranked rather than rejected. -/
theorem parse_card_accepts_rank_11_token :
    parse_card "11S" = .ok ⟨11, Suit.Spade⟩ ∧
    winning_hands ["11S 2H 3D 4C 5S"] = .ok (some ["11S 2H 3D 4C 5S"]) :=
  ⟨rfl, rfl⟩

/-- C6 evidence: a hand string with three card tokens is never rejected:
it parses, is classified (as a StraightFlush of all things), and wins. -/
theorem winning_hands_accepts_three_card_hand :
    (splitWs ("2H 3H 4H".data)).length = 3 ∧
    parse_hand "2H 3H 4H" = .ok ⟨HandType.StraightFlush, [4], "2H 3H 4H"⟩ ∧
    winning_hands ["2H 3H 4H"] = .ok (some ["2H 3H 4H"]) :=
  ⟨rfl, rfl, rfl⟩

/-- C8 counterexample: the four-of-a-kind tie-break key for
`4H 4S 4D 4C 9D` is `[4, 9, 4, 4, 4, 4]` - the quad rank followed by all
five card ranks descending - not `[4, 9]` (quad rank plus kicker only). -/
theorem four_of_a_kind_tie_breaker_not_just_kickers :
    parse_hand "4H 4S 4D 4C 9D" =
      .ok ⟨HandType.FourOfAKind, [4, 9, 4, 4, 4, 4], "4H 4S 4D 4C 9D"⟩ ∧
    ([4, 9, 4, 4, 4, 4] : List Nat) ≠ [4, 9] :=
  ⟨rfl, by decide⟩

/-! ## Witnesses -/

/-- Witness for C1 at the spec's full-house-beats-flush example. -/
theorem winning_hands_selects_exactly_the_maximal_pairs_witness :
    ∃ ws, winning_hands ["2H 2D 2C 5H 5D", "2H 5H 7H 9H JH"] = .ok (some ws) ∧
      ∀ s, s ∈ ws ↔
        (s ∈ ["2H 2D 2C 5H 5D", "2H 5H 7H 9H JH"] ∧
          ∀ t ∈ ["2H 2D 2C 5H 5D", "2H 5H 7H 9H JH"],
            pairLe (pairOfStr t) (pairOfStr s) = true) :=
  winning_hands_selects_exactly_the_maximal_pairs _ (by simp)
    (by
      intro s hs
      rcases List.mem_cons.mp hs with rfl | hs
      · exact ⟨_, rfl⟩
      rcases List.mem_cons.mp hs with rfl | hs
      · exact ⟨_, rfl⟩
      · simp at hs)

/-- Witness for the amended C3 at the tied full-house example. -/
theorem winning_hands_ties_sorted_by_descending_string_witness :
    ∃ ws, winning_hands ["4C 4D 4H 9C 9D", "4C 4D 4S 9C 9D"] = .ok (some ws) ∧
      (∀ s ∈ ["4C 4D 4H 9C 9D", "4C 4D 4S 9C 9D"],
        (∀ t ∈ ["4C 4D 4H 9C 9D", "4C 4D 4S 9C 9D"],
          pairLe (pairOfStr t) (pairOfStr s) = true) → s ∈ ws) ∧
      ws.Pairwise (fun a b => ltL (strKey a) (strKey b) = false) :=
  winning_hands_ties_sorted_by_descending_string _ (by simp)
    (by
      intro s hs
      rcases List.mem_cons.mp hs with rfl | hs
      · exact ⟨_, rfl⟩
      rcases List.mem_cons.mp hs with rfl | hs
      · exact ⟨_, rfl⟩
      · simp at hs)

/-- Witness for C9 at the spec's flush-beats-high-card example. -/
theorem winning_hands_none_iff_empty_input_witness :
    (winning_hands ["4S 5S 6S 8D JH", "2S 4C 7S 9H 10H"] = .ok none ↔
      ["4S 5S 6S 8D JH", "2S 4C 7S 9H 10H"] = ([] : List String)) ∧
    (["4S 5S 6S 8D JH", "2S 4C 7S 9H 10H"] ≠ ([] : List String) →
      ∃ ws, winning_hands ["4S 5S 6S 8D JH", "2S 4C 7S 9H 10H"] = .ok (some ws) ∧
        ws ≠ []) :=
  winning_hands_none_iff_empty_input _
    (by
      intro s hs
      rcases List.mem_cons.mp hs with rfl | hs
      · exact ⟨_, rfl⟩
      rcases List.mem_cons.mp hs with rfl | hs
      · exact ⟨_, rfl⟩
      · simp at hs)

/-- Witness for C7: a four of a kind with the highest possible tie-breaker
still loses to a straight flush with the lowest possible one. -/
theorem higher_category_always_wins_in_handLe_witness :
    HandType.FourOfAKind.idx < HandType.StraightFlush.idx ∧
    (handLe ⟨.FourOfAKind, [14, 14, 14, 14, 13], "a"⟩ ⟨.StraightFlush, [2], "b"⟩ = true ∧
      handLe ⟨.StraightFlush, [2], "b"⟩ ⟨.FourOfAKind, [14, 14, 14, 14, 13], "a"⟩ = false) :=
  ⟨by decide, higher_category_always_wins_in_handLe _ _ (by decide)⟩

/-! ## The of-a-kind map: lookup characterisation -/

theorem lookupOak_bumpOak_self (oak : List (Nat × Nat)) (v : Nat) :
    lookupOak (bumpOak oak v) v =
      match lookupOak oak v with
      | some w => some (w + 1)
      | none => some 2 := by
  induction oak with
  | nil => simp [bumpOak, lookupOak]
  | cons e rest ih =>
    rcases e with ⟨k, c⟩
    by_cases hk : k = v
    · subst hk
      simp [bumpOak, lookupOak]
    · simp only [bumpOak, lookupOak, if_neg hk]
      exact ih

theorem lookupOak_bumpOak_ne (oak : List (Nat × Nat)) {v r : Nat} (h : r ≠ v) :
    lookupOak (bumpOak oak v) r = lookupOak oak r := by
  induction oak with
  | nil => simp [bumpOak, lookupOak, Ne.symm h]
  | cons e rest ih =>
    rcases e with ⟨k, c⟩
    by_cases hk : k = v
    · subst hk
      simp [bumpOak, lookupOak, Ne.symm h]
    · by_cases hr : k = r
      · subst hr
        simp [bumpOak, lookupOak, hk]
      · simp only [bumpOak, lookupOak, if_neg hk, if_neg hr]
        exact ih

/-- The number of increments the profiling loop performs for rank `r` while
scanning a sorted block with `k` occurrences of `r`, entered with previous
value `prev`. -/
def oakTriggers (k : Nat) (r prev : Nat) : Nat :=
  if k = 0 then 0 else k - 1 + (if r = prev then 1 else 0)

theorem oakTriggers_zero (r p : Nat) : oakTriggers 0 r p = 0 := by
  simp [oakTriggers]

theorem oakTriggers_succ_self (k r : Nat) : oakTriggers (k + 1) r r = k + 1 := by
  simp [oakTriggers]

theorem oakTriggers_self (k r : Nat) : oakTriggers k r r = k := by
  cases k with
  | zero => exact oakTriggers_zero r r
  | succ k => exact oakTriggers_succ_self k r

theorem oakTriggers_succ_ne (k : Nat) {r p : Nat} (h : r ≠ p) :
    oakTriggers (k + 1) r p = k := by
  simp [oakTriggers, h]

theorem count_cons_value (r : Nat) (c : Card) (cs : List Card) :
    ((c :: cs).map Card.value).count r =
      (cs.map Card.value).count r + (if r = c.value then 1 else 0) := by
  simp only [List.map_cons, List.count_cons]
  congr 1
  by_cases h : r = c.value
  · simp [h]
  · simp [beq_iff_eq, h, Ne.symm h]

/-- Invariant of the profiling loop's of-a-kind map: on a sorted tail whose
values all dominate `prev`, each rank's final entry is the initial entry
advanced by the number of adjacent-duplicate events for that rank. -/
theorem profileLoop_lookup :
    ∀ (cs : List Card) (prev : Nat) (suits : List Suit) (oak : List (Nat × Nat)) (b : Bool),
      cs.Pairwise (fun a c => a.value ≤ c.value) →
      (∀ c ∈ cs, prev ≤ c.value) →
      ∀ r, lookupOak (profileLoop cs prev suits oak b).2.1 r =
        (if oakTriggers ((cs.map Card.value).count r) r prev = 0 then lookupOak oak r
         else
           match lookupOak oak r with
           | some w => some (w + oakTriggers ((cs.map Card.value).count r) r prev)
           | none => some (oakTriggers ((cs.map Card.value).count r) r prev + 1)) := by
  intro cs
  induction cs with
  | nil =>
    intro prev suits oak b _ _ r
    simp [profileLoop, oakTriggers]
  | cons c cs ih =>
    intro prev suits oak b hsorted hlb r
    have hsorted2 : cs.Pairwise (fun a c => a.value ≤ c.value) :=
      (List.pairwise_cons.mp hsorted).2
    have hhead : ∀ x ∈ cs, c.value ≤ x.value := (List.pairwise_cons.mp hsorted).1
    have hIH := ih c.value (insertSuit c.suit suits)
      (if prev = c.value then bumpOak oak c.value else oak)
      (if prev + 1 ≠ c.value ∧ prev ≠ 0 ∧ prev ≠ 5 ∧ c.value ≠ ACE_VALUE then false else b)
      hsorted2 hhead r
    rw [profileLoop, hIH, count_cons_value]
    by_cases hrv : r = c.value
    · subst hrv
      rw [if_pos rfl]
      by_cases hpv : prev = c.value
      · -- the head has rank `r` and equals `prev`: a bump plus a trigger
        subst hpv
        rw [if_pos rfl, oakTriggers_self, oakTriggers_succ_self, lookupOak_bumpOak_self,
          if_neg (Nat.succ_ne_zero _)]
        by_cases h0 : (cs.map Card.value).count c.value = 0
        · rw [if_pos h0, h0]
        · rw [if_neg h0]
          cases lookupOak oak c.value <;> simp <;> omega
      · -- the head has rank `r` but `prev` differs: the head itself triggers
        -- nothing, so both sides see the same trigger count
        rw [if_neg hpv, oakTriggers_self,
          oakTriggers_succ_ne _ (fun hc : c.value = prev => hpv hc.symm)]
    · rw [if_neg hrv]
      simp only [Nat.add_zero]
      by_cases hpv : prev = c.value
      · -- a bump happens but for rank `c.value ≠ r`
        rw [if_pos hpv, lookupOak_bumpOak_ne oak hrv, hpv]
      · rw [if_neg hpv]
        by_cases hrp : r = prev
        · -- `r` is the old `prev`, strictly below every remaining value,
          -- so it occurs neither at the head nor in the tail
          subst hrp
          have hlt : r < c.value := by
            have h1 := hlb c (List.mem_cons_self _ _)
            omega
          have hnot : r ∉ cs.map Card.value := by
            intro hmem
            rcases List.mem_map.mp hmem with ⟨x, hx, hxv⟩
            have h2 := hhead x hx
            omega
          have hk0 : (cs.map Card.value).count r = 0 := List.count_eq_zero.mpr hnot
          rw [hk0, oakTriggers_zero, oakTriggers_zero]
        · have htrig : ∀ k, oakTriggers k r prev = oakTriggers k r c.value := by
            intro k
            cases k with
            | zero => rw [oakTriggers_zero, oakTriggers_zero]
            | succ k => rw [oakTriggers_succ_ne _ hrp, oakTriggers_succ_ne _ hrv]
          rw [htrig]

theorem cardLe_trans : ∀ (a b c : Card),
    decide (a.value ≤ b.value) = true → decide (b.value ≤ c.value) = true →
    decide (a.value ≤ c.value) = true := by
  intro a b c h1 h2
  simp only [decide_eq_true_eq] at h1 h2 ⊢
  omega

theorem cardLe_total : ∀ (a b : Card),
    decide (a.value ≤ b.value) = true ∨ decide (b.value ≤ a.value) = true := by
  intro a b
  by_cases h : a.value ≤ b.value
  · exact Or.inl (by simp [h])
  · refine Or.inr (by simp; omega)

theorem sortCards_sorted (cards : List Card) :
    (sortCards cards).Pairwise (fun a c => a.value ≤ c.value) := by
  have h := pairwise_sortBy (fun a b => decide (a.value ≤ b.value))
    cardLe_trans cardLe_total cards
  exact h.imp (fun hx => by simpa using hx)

/-- Specialisation to `profile_hand`'s actual call: starting from `prev = 0`
with an empty map, the final map holds exactly the ranks of multiplicity at
least two, each with its exact multiplicity. -/
theorem profile_hand_lookup (cards : List Card) (hv : ∀ c ∈ cards, 2 ≤ c.value) (r : Nat) :
    lookupOak (profile_hand cards).2.1 r =
      (if 2 ≤ (cards.map Card.value).count r then some ((cards.map Card.value).count r)
       else none) := by
  have hlb : ∀ c ∈ sortCards cards, 0 ≤ c.value := fun _ _ => Nat.zero_le _
  have hkey := profileLoop_lookup (sortCards cards) 0 [] [] true
    (sortCards_sorted cards) hlb r
  have hcount : ((sortCards cards).map Card.value).count r =
      (cards.map Card.value).count r :=
    ((sortBy_perm _ cards).map _).count_eq r
  unfold profile_hand
  rw [hkey, hcount]
  by_cases h0 : (cards.map Card.value).count r = 0
  · rw [h0, oakTriggers_zero]
    simp [lookupOak]
  · have hrne : r ≠ 0 := by
      have hmem : r ∈ cards.map Card.value := by
        by_contra hmem
        exact h0 (List.count_eq_zero.mpr hmem)
      rcases List.mem_map.mp hmem with ⟨x, hx, hxv⟩
      have h2 := hv x hx
      omega
    obtain ⟨k, hk⟩ : ∃ k, (cards.map Card.value).count r = k + 1 :=
      ⟨(cards.map Card.value).count r - 1, by omega⟩
    rw [hk, oakTriggers_succ_ne _ hrne]
    cases k with
    | zero => simp [lookupOak]
    | succ k =>
      rw [if_neg (Nat.succ_ne_zero k)]
      simp [lookupOak]

theorem lookupOak_eq_none_iff (oak : List (Nat × Nat)) (r : Nat) :
    lookupOak oak r = none ↔ r ∉ oak.map Prod.fst := by
  induction oak with
  | nil => simp [lookupOak]
  | cons e rest ih =>
    rcases e with ⟨k, c⟩
    by_cases hk : k = r
    · subst hk
      simp [lookupOak]
    · simp [lookupOak, hk, ih, Ne.symm hk]

theorem bumpOak_keys (oak : List (Nat × Nat)) (v : Nat) :
    (bumpOak oak v).map Prod.fst =
      (if v ∈ oak.map Prod.fst then oak.map Prod.fst else oak.map Prod.fst ++ [v]) := by
  induction oak with
  | nil => simp [bumpOak]
  | cons e rest ih =>
    rcases e with ⟨k, c⟩
    by_cases hk : k = v
    · subst hk
      simp [bumpOak]
    · simp only [bumpOak, if_neg hk, List.map_cons, ih]
      by_cases hv : v ∈ rest.map Prod.fst
      · simp [hv, Ne.symm hk]
      · simp [hv, Ne.symm hk]

theorem profileLoop_keys_nodup :
    ∀ (cs : List Card) (prev : Nat) (suits : List Suit) (oak : List (Nat × Nat)) (b : Bool),
      (oak.map Prod.fst).Nodup →
      (((profileLoop cs prev suits oak b).2.1).map Prod.fst).Nodup := by
  intro cs
  induction cs with
  | nil =>
    intro prev suits oak b h
    simpa [profileLoop] using h
  | cons c cs ih =>
    intro prev suits oak b h
    rw [profileLoop]
    apply ih
    by_cases hpv : prev = c.value
    · rw [if_pos hpv, bumpOak_keys]
      by_cases hv : c.value ∈ oak.map Prod.fst
      · rw [if_pos hv]
        exact h
      · rw [if_neg hv, List.nodup_append]
        refine ⟨h, List.nodup_singleton _, ?_⟩
        intro a ha hav
        rw [List.mem_singleton] at hav
        exact hv (hav ▸ ha)
    · rw [if_neg hpv]
      exact h

theorem lookupOak_mem_of_nodup :
    ∀ {oak : List (Nat × Nat)}, (oak.map Prod.fst).Nodup →
      ∀ {e : Nat × Nat}, e ∈ oak → lookupOak oak e.1 = some e.2 := by
  intro oak
  induction oak with
  | nil =>
    intro _ e he
    cases he
  | cons f rest ih =>
    intro hnd e he
    rcases f with ⟨k, c⟩
    have hnd' := List.nodup_cons.mp (show (k :: rest.map Prod.fst).Nodup from hnd)
    rcases List.mem_cons.mp he with rfl | he
    · simp [lookupOak]
    · have hk : k ≠ e.1 := by
        intro hc
        have hmem : e.1 ∈ rest.map Prod.fst := List.mem_map.mpr ⟨e, he, rfl⟩
        exact hnd'.1 (hc ▸ hmem)
      simp only [lookupOak, if_neg hk]
      exact ih hnd'.2 he

/-- In a duplicate-free deck each rank has at most four cards (one per
suit), so a rank's multiplicity is at most 4. -/
theorem count_value_le_four {cards : List Card} (hnd : cards.Nodup) (r : Nat) :
    (cards.map Card.value).count r ≤ 4 := by
  have h1 : (cards.map Card.value).count r =
      (cards.filter (fun c => c.value == r)).length := by
    rw [List.count, List.countP_map, List.countP_eq_length_filter]
    rfl
  have h2 : (cards.filter (fun c => c.value == r)).Nodup := hnd.filter _
  have h3 : ((cards.filter (fun c => c.value == r)).map Card.suit).Nodup := by
    refine List.Nodup.map_on ?_ h2
    intro x hx y hy hxy
    have hxv : x.value = r := by
      have := (List.mem_filter.mp hx).2
      simpa using this
    have hyv : y.value = r := by
      have := (List.mem_filter.mp hy).2
      simpa using this
    cases x with
    | mk xv xs =>
      cases y with
      | mk yv ys =>
        simp only at hxv hyv hxy
        subst hxv
        subst hyv
        rw [hxy]
  have h4 := h3.length_le_card
  rw [List.length_map] at h4
  have h5 : Fintype.card Suit = 4 := rfl
  omega

/-- Helper with the full characterisation of the rank-count map for a valid
duplicate-free deck of cards (the claim theorem below restates it). -/
theorem profile_oak_spec (cards : List Card)
    (_h5 : cards.length = 5)
    (hv : ∀ c ∈ cards, 2 ≤ c.value ∧ c.value ≤ 14)
    (hnd : cards.Nodup) :
    (∀ r, lookupOak (profile_hand cards).2.1 r =
        (if 2 ≤ (cards.map Card.value).count r then some ((cards.map Card.value).count r)
         else none)) ∧
    (∀ r, r ∈ (profile_hand cards).2.1.map Prod.fst ↔
        2 ≤ (cards.map Card.value).count r) ∧
    ((profile_hand cards).2.1.map Prod.fst).Nodup ∧
    (∀ e ∈ (profile_hand cards).2.1,
        e.2 = (cards.map Card.value).count e.1 ∧ (e.2 = 2 ∨ e.2 = 3 ∨ e.2 = 4)) := by
  have hv2 : ∀ c ∈ cards, 2 ≤ c.value := fun c hc => (hv c hc).1
  have hlook := profile_hand_lookup cards hv2
  have hnodup : ((profile_hand cards).2.1.map Prod.fst).Nodup := by
    unfold profile_hand
    exact profileLoop_keys_nodup (sortCards cards) 0 [] [] true (by simp)
  refine ⟨hlook, ?_, hnodup, ?_⟩
  · intro r
    constructor
    · intro hr
      by_contra hcount
      have hn : lookupOak (profile_hand cards).2.1 r = none := by
        rw [hlook r, if_neg hcount]
      exact ((lookupOak_eq_none_iff _ r).mp hn) hr
    · intro hcount
      by_contra hr
      have h2 := (lookupOak_eq_none_iff _ r).mpr hr
      rw [hlook r, if_pos hcount] at h2
      cases h2
  · intro e he
    have h1 := lookupOak_mem_of_nodup hnodup he
    rw [hlook e.1] at h1
    by_cases hc : 2 ≤ (cards.map Card.value).count e.1
    · rw [if_pos hc] at h1
      have heq : e.2 = (cards.map Card.value).count e.1 := by
        injection h1 with h1
        exact h1.symm
      have hle := count_value_le_four hnd e.1
      exact ⟨heq, by omega⟩
    · rw [if_neg hc] at h1
      cases h1

/-- C10: for 5 valid, pairwise distinct cards, the rank-count map holds an
entry exactly for each rank of multiplicity at least 2, mapped to its exact
multiplicity (2, 3 or 4); singleton ranks are absent and the key list is
duplicate-free. -/
theorem rank_count_map_exact (cards : List Card)
    (h5 : cards.length = 5)
    (hv : ∀ c ∈ cards, 2 ≤ c.value ∧ c.value ≤ 14)
    (hnd : cards.Nodup) :
    (∀ r, lookupOak (profile_hand cards).2.1 r =
        (if 2 ≤ (cards.map Card.value).count r then some ((cards.map Card.value).count r)
         else none)) ∧
    (∀ r, r ∈ (profile_hand cards).2.1.map Prod.fst ↔
        2 ≤ (cards.map Card.value).count r) ∧
    ((profile_hand cards).2.1.map Prod.fst).Nodup ∧
    (∀ e ∈ (profile_hand cards).2.1,
        e.2 = (cards.map Card.value).count e.1 ∧ (e.2 = 2 ∨ e.2 = 3 ∨ e.2 = 4)) :=
  profile_oak_spec cards h5 hv hnd

/-- Witness for C10 at a concrete two-pair hand. -/
theorem rank_count_map_exact_witness :
    (∀ r, lookupOak (profile_hand [⟨4, .Heart⟩, ⟨4, .Spade⟩, ⟨9, .Diamond⟩,
        ⟨9, .Club⟩, ⟨2, .Heart⟩]).2.1 r =
        (if 2 ≤ (([⟨4, .Heart⟩, ⟨4, .Spade⟩, ⟨9, .Diamond⟩, ⟨9, .Club⟩,
            ⟨2, .Heart⟩] : List Card).map Card.value).count r
         then some ((([⟨4, .Heart⟩, ⟨4, .Spade⟩, ⟨9, .Diamond⟩, ⟨9, .Club⟩,
            ⟨2, .Heart⟩] : List Card).map Card.value).count r)
         else none)) ∧
    (∀ r, r ∈ (profile_hand [⟨4, .Heart⟩, ⟨4, .Spade⟩, ⟨9, .Diamond⟩,
        ⟨9, .Club⟩, ⟨2, .Heart⟩]).2.1.map Prod.fst ↔
        2 ≤ (([⟨4, .Heart⟩, ⟨4, .Spade⟩, ⟨9, .Diamond⟩, ⟨9, .Club⟩,
            ⟨2, .Heart⟩] : List Card).map Card.value).count r) ∧
    ((profile_hand [⟨4, .Heart⟩, ⟨4, .Spade⟩, ⟨9, .Diamond⟩,
        ⟨9, .Club⟩, ⟨2, .Heart⟩]).2.1.map Prod.fst).Nodup ∧
    (∀ e ∈ (profile_hand [⟨4, .Heart⟩, ⟨4, .Spade⟩, ⟨9, .Diamond⟩,
        ⟨9, .Club⟩, ⟨2, .Heart⟩]).2.1,
        e.2 = (([⟨4, .Heart⟩, ⟨4, .Spade⟩, ⟨9, .Diamond⟩, ⟨9, .Club⟩,
            ⟨2, .Heart⟩] : List Card).map Card.value).count e.1 ∧
          (e.2 = 2 ∨ e.2 = 3 ∨ e.2 = 4)) :=
  rank_count_map_exact _ (by decide) (by decide) (by decide)

/-! ## The of-a-kind map in the `of_a_kind_tie_breaker` branches -/

theorem foldl_max_mem (l : List Nat) (i : Nat) : l.foldl max i = i ∨ l.foldl max i ∈ l := by
  induction l generalizing i with
  | nil => exact Or.inl rfl
  | cons x xs ih =>
    rw [List.foldl_cons]
    rcases ih (max i x) with h | h
    · by_cases hix : i ≤ x
      · right
        rw [h, Nat.max_eq_right hix]
        exact List.mem_cons_self _ _
      · left
        rw [h, Nat.max_eq_left (by omega)]
    · right
      exact List.mem_cons_of_mem _ h

theorem two_mul_length_le_sum {l : List Nat} (h : ∀ x ∈ l, 2 ≤ x) :
    2 * l.length ≤ l.sum := by
  induction l with
  | nil => simp
  | cons x xs ih =>
    have hx := h x (List.mem_cons_self _ _)
    have hxs := ih (fun y hy => h y (List.mem_cons_of_mem _ hy))
    simp only [List.sum_cons, List.length_cons]
    omega

/-- Distinct ranks' multiplicities cannot add up to more than the number of
cards. -/
theorem sum_counts_le :
    ∀ (keys : List Nat), keys.Nodup → ∀ (l : List Nat),
      (keys.map (fun r => l.count r)).sum ≤ l.length := by
  intro keys
  induction keys with
  | nil =>
    intro _ l
    simp
  | cons k ks ih =>
    intro h l
    rcases List.nodup_cons.mp h with ⟨hknot, hks⟩
    simp only [List.map_cons, List.sum_cons]
    have hcf : ks.map (fun r => l.count r) =
        ks.map (fun r => (l.filter (fun x => !(x == k))).count r) := by
      apply List.map_congr_left
      intro r hr
      have hrk : r ≠ k := fun hc => hknot (hc ▸ hr)
      rw [List.count_filter (by simp [hrk])]
    have hrec := ih hks (l.filter (fun x => !(x == k)))
    have hsplit : l.count k + (l.filter (fun x => !(x == k))).length ≤ l.length := by
      have h1 := List.length_eq_countP_add_countP (p := fun x => x == k) (l := l)
      have h2 : l.count k = List.countP (fun x => x == k) l := rfl
      have h3 : List.countP (fun a => ¬ (a == k) = true) l =
          (l.filter (fun x => !(x == k))).length := by
        rw [← List.countP_eq_length_filter]
        congr 1
        funext a
        by_cases ha : (a == k) = true <;> simp [ha]
      omega
    rw [hcf]
    omega

/-- In the four-of-a-kind and three-of-a-kind branches the map has exactly
one entry, carrying the grouped rank and its multiplicity `m`. -/
theorem oak_single_of_max (cards : List Card)
    (h5 : cards.length = 5)
    (hv : ∀ c ∈ cards, 2 ≤ c.value ∧ c.value ≤ 14)
    (hnd : cards.Nodup)
    (m : Nat) (hm : m = 3 ∨ m = 4)
    (hmax : (((profile_hand cards).2.1).map Prod.snd).foldl max 0 = m)
    (hlen2 : m = 4 ∨ (profile_hand cards).2.1.length ≠ 2) :
    ∃ g, (profile_hand cards).2.1 = [(g, m)] ∧ (cards.map Card.value).count g = m := by
  obtain ⟨hlook, hkeys, hnodup, hentries⟩ := profile_oak_spec cards h5 hv hnd
  have hne0 : m ≠ 0 := by rcases hm with rfl | rfl <;> omega
  have hmem : m ∈ ((profile_hand cards).2.1).map Prod.snd := by
    rcases foldl_max_mem (((profile_hand cards).2.1).map Prod.snd) 0 with h | h
    · rw [hmax] at h
      exact absurd h hne0
    · rw [hmax] at h
      exact h
  have hvals : ((profile_hand cards).2.1).map Prod.snd =
      (((profile_hand cards).2.1).map Prod.fst).map
        (fun r => (cards.map Card.value).count r) := by
    rw [List.map_map]
    apply List.map_congr_left
    intro e he
    exact (hentries e he).1
  have hsum : (((profile_hand cards).2.1).map Prod.snd).sum ≤ 5 := by
    rw [hvals]
    have h1 := sum_counts_le (((profile_hand cards).2.1).map Prod.fst) hnodup
      (cards.map Card.value)
    rw [List.length_map, h5] at h1
    exact h1
  have hge2 : ∀ x ∈ ((profile_hand cards).2.1).map Prod.snd, 2 ≤ x := by
    intro x hx
    rcases List.mem_map.mp hx with ⟨e, he, rfl⟩
    rcases (hentries e he).2 with h | h | h <;> omega
  have hlen : (profile_hand cards).2.1.length = 1 := by
    have hvlen : (((profile_hand cards).2.1).map Prod.snd).length =
        (profile_hand cards).2.1.length := List.length_map _ _
    have hperm := List.perm_cons_erase hmem
    have hsum2 : (((profile_hand cards).2.1).map Prod.snd).sum =
        m + ((((profile_hand cards).2.1).map Prod.snd).erase m).sum := by
      rw [hperm.sum_eq]
      simp
    have helen : ((((profile_hand cards).2.1).map Prod.snd).erase m).length =
        (((profile_hand cards).2.1).map Prod.snd).length - 1 :=
      List.length_erase_of_mem hmem
    have herasege := two_mul_length_le_sum
      (l := (((profile_hand cards).2.1).map Prod.snd).erase m)
      (fun x hx => hge2 x (List.mem_of_mem_erase hx))
    have hpos : 1 ≤ (profile_hand cards).2.1.length := by
      rcases List.mem_map.mp hmem with ⟨e, he, _⟩
      have hne : (profile_hand cards).2.1 ≠ [] := by
        intro hc
        rw [hc] at he
        cases he
      have := List.length_pos.mpr hne
      omega
    rcases hm with rfl | rfl
    · rcases hlen2 with h34 | hlen2
      · omega
      · omega
    · omega
  obtain ⟨e, hoak1⟩ : ∃ e, (profile_hand cards).2.1 = [e] := List.length_eq_one.mp hlen
  have hm2 : e.2 = m := by
    rw [hoak1] at hmem
    have hme : m = e.2 := by simpa using hmem
    omega
  have hcnt : (cards.map Card.value).count e.1 = m := by
    have h2 := (hentries e (by rw [hoak1]; exact List.mem_cons_self _ _)).1
    omega
  refine ⟨e.1, ?_, hcnt⟩
  rw [hoak1]
  have he2 : e = (e.1, m) := by
    cases e with
    | mk a b =>
      cases hm2
      rfl
  rw [he2]

/-- C8 amended: in the FourOfAKind, ThreeOfAKind and OnePair branches the
tie-break key is the grouped rank (multiplicity 4, 3 resp. 2) followed by
all five card ranks sorted descending - the grouped cards included, not the
kickers alone. -/
theorem of_a_kind_tie_breaker_shape (cards : List Card)
    (h5 : cards.length = 5)
    (hv : ∀ c ∈ cards, 2 ≤ c.value ∧ c.value ≤ 14)
    (hnd : cards.Nodup)
    (tb : List Nat) (t : HandType)
    (hdet : determine_hand_type (profile_hand cards) (sortCards cards) = .ok (tb, t))
    (ht : t = .FourOfAKind ∨ t = .ThreeOfAKind ∨ t = .OnePair) :
    ∃ g, tb = g :: ((sortCards cards).map Card.value).reverse ∧
      (cards.map Card.value).count g =
        (if t = .FourOfAKind then 4 else if t = .ThreeOfAKind then 3 else 2) := by
  simp only [determine_hand_type, bind, Except.bind] at hdet
  split at hdet
  case isTrue hc1 =>
    split at hdet
    · cases hdet
    · simp only [pure, Except.pure, Except.ok.injEq, Prod.mk.injEq] at hdet
      obtain ⟨-, hty⟩ := hdet
      subst hty
      simp at ht
  case isFalse hc1 =>
    split at hdet
    case isTrue hc2 =>
      obtain ⟨g, hoak1, hcnt⟩ := oak_single_of_max cards h5 hv hnd 4 (Or.inr rfl) hc2
        (Or.inl rfl)
      rw [hoak1] at hdet
      simp only [of_a_kind_tie_breaker, List.head?_cons, pure, Except.pure,
        Except.ok.injEq, Prod.mk.injEq] at hdet
      obtain ⟨htb, hty⟩ := hdet
      subst hty
      refine ⟨g, ?_, ?_⟩
      · rw [← htb, ← List.map_reverse]
      · rw [if_pos rfl]
        exact hcnt
    case isFalse hc2 =>
      split at hdet
      case isTrue hc3 =>
        simp only [pure, Except.pure, Except.ok.injEq, Prod.mk.injEq] at hdet
        obtain ⟨-, hty⟩ := hdet
        subst hty
        simp at ht
      case isFalse hc3 =>
        split at hdet
        case isTrue hc4 =>
          simp only [pure, Except.pure, Except.ok.injEq, Prod.mk.injEq] at hdet
          obtain ⟨-, hty⟩ := hdet
          subst hty
          simp at ht
        case isFalse hc4 =>
          split at hdet
          case isTrue hc5 =>
            split at hdet
            · cases hdet
            · simp only [pure, Except.pure, Except.ok.injEq, Prod.mk.injEq] at hdet
              obtain ⟨-, hty⟩ := hdet
              subst hty
              simp at ht
          case isFalse hc5 =>
            split at hdet
            case isTrue hc6 =>
              have hlen2 : (profile_hand cards).2.1.length ≠ 2 :=
                fun hlc => hc3 ⟨hc6, hlc⟩
              obtain ⟨g, hoak1, hcnt⟩ := oak_single_of_max cards h5 hv hnd 3
                (Or.inl rfl) hc6 (Or.inr hlen2)
              rw [hoak1] at hdet
              simp only [of_a_kind_tie_breaker, List.head?_cons, pure, Except.pure,
                Except.ok.injEq, Prod.mk.injEq] at hdet
              obtain ⟨htb, hty⟩ := hdet
              subst hty
              refine ⟨g, ?_, ?_⟩
              · rw [← htb, ← List.map_reverse]
              · rw [if_neg (by simp), if_pos rfl]
                exact hcnt
            case isFalse hc6 =>
              split at hdet
              case isTrue hc7 =>
                simp only [pure, Except.pure, Except.ok.injEq, Prod.mk.injEq] at hdet
                obtain ⟨-, hty⟩ := hdet
                subst hty
                simp at ht
              case isFalse hc7 =>
                split at hdet
                case isTrue hc8 =>
                  obtain ⟨e, hoak1⟩ := List.length_eq_one.mp hc8
                  obtain ⟨hlook, hkeys, hnodup, hentries⟩ :=
                    profile_oak_spec cards h5 hv hnd
                  have hee := hentries e (by rw [hoak1]; exact List.mem_cons_self _ _)
                  have hmax1 :
                      (((profile_hand cards).2.1).map Prod.snd).foldl max 0 = e.2 := by
                    rw [hoak1]
                    simp
                  have he2 : e.2 = 2 := by
                    rcases hee.2 with h | h | h
                    · exact h
                    · exact absurd (hmax1.trans h) hc6
                    · exact absurd (hmax1.trans h) hc2
                  rw [hoak1] at hdet
                  simp only [of_a_kind_tie_breaker, List.head?_cons, pure, Except.pure,
                    Except.ok.injEq, Prod.mk.injEq] at hdet
                  obtain ⟨htb, hty⟩ := hdet
                  subst hty
                  refine ⟨e.1, ?_, ?_⟩
                  · rw [← htb, ← List.map_reverse]
                  · rw [if_neg (by simp), if_neg (by simp)]
                    rw [← hee.1]
                    exact he2
                case isFalse hc8 =>
                  simp only [pure, Except.pure, Except.ok.injEq, Prod.mk.injEq] at hdet
                  obtain ⟨-, hty⟩ := hdet
                  subst hty
                  simp at ht

/-- Witness for the amended C8 at a concrete four of a kind. -/
theorem of_a_kind_tie_breaker_shape_witness :
    ∃ g, [4, 9, 4, 4, 4, 4] = g :: (((sortCards [⟨4, .Heart⟩, ⟨4, .Spade⟩, ⟨4, .Diamond⟩,
        ⟨4, .Club⟩, ⟨9, .Diamond⟩]).map Card.value).reverse) ∧
      (([⟨4, .Heart⟩, ⟨4, .Spade⟩, ⟨4, .Diamond⟩, ⟨4, .Club⟩,
          ⟨9, .Diamond⟩] : List Card).map Card.value).count g =
        (if HandType.FourOfAKind = HandType.FourOfAKind then 4
         else if HandType.FourOfAKind = HandType.ThreeOfAKind then 3 else 2) :=
  of_a_kind_tie_breaker_shape
    [⟨4, .Heart⟩, ⟨4, .Spade⟩, ⟨4, .Diamond⟩, ⟨4, .Club⟩, ⟨9, .Diamond⟩]
    (by decide) (by decide) (by decide) [4, 9, 4, 4, 4, 4] HandType.FourOfAKind
    (by rfl) (Or.inl rfl)

end Poker
